import Mathlib

/-!
Verification of the core of the CI/CD log analyzer
(`backend/app/preprocess.py` and `backend/app/embeddings.py`).

Python strings are modelled as `List Char`; Python `int` indices as `Nat`
(all index arithmetic in the sources keeps indices non-negative, and the one
place where Python clamps a negative intermediate — `chunk_text`'s
`if i < 0: i = 0` — coincides with `Nat` truncated subtraction, as noted at
`chunkLoop`).  Fallible code (loops that may not terminate, attribute errors
on non-dict values) is modelled with `Option`.
-/

set_option maxRecDepth 8000

namespace LogAnalyzer

/-! ## Chunker: `chunk_text` (embeddings.py)

```python
def chunk_text(text, chunk_size=2000, overlap=200):
    if not text:
        return []
    chunks = []
    i = 0
    n = len(text)
    while i < n:
        end = i + chunk_size
        chunks.append(text[i:end])
        i = end - overlap
        if i < 0:
            i = 0
    return chunks
```
-/

/-- The `while i < n` loop of `chunk_text`.  `fuel` bounds the number of loop
iterations we are willing to unfold: the Python loop is unbounded, so a result
of `none` for every `fuel` means the loop diverges.  The offset update
`i = end - overlap; if i < 0: i = 0` is exactly `i + chunk_size - overlap` in
truncated `Nat` subtraction (the clamp-at-zero coincides). -/
def chunkLoop (text : List Char) (chunk_size overlap : Nat) :
    Nat → Nat → Option (List (List Char))
  | 0, _ => none
  | fuel + 1, i =>
    if i < text.length then
      (chunkLoop text chunk_size overlap fuel (i + chunk_size - overlap)).map
        (fun rest => ((text.drop i).take chunk_size) :: rest)
    else
      some []

/-- `chunk_text` from embeddings.py.  Python's `text[i:end]` is
`(text.drop i).take chunk_size`.  The defaults in the source are
`chunk_size = 2000`, `overlap = 200`. -/
def chunk_text (fuel : Nat) (text : List Char) (chunk_size overlap : Nat) :
    Option (List (List Char)) :=
  if text = [] then some []
  else chunkLoop text chunk_size overlap fuel 0

/-- The spec's reconstruction recipe: concatenate the chunks after removing the
leading `overlap` characters from every chunk but the first. -/
def reassemble (overlap : Nat) : List (List Char) → List Char
  | [] => []
  | c :: rest => c ++ (rest.map (List.drop overlap)).flatten

theorem chunkLoop_spec (text : List Char) (cs ov : Nat) (hov : ov < cs) :
    ∀ fuel i, text.length - i < fuel →
      ∃ out, chunkLoop text cs ov fuel i = some out ∧
        (out.map (List.drop ov)).flatten = text.drop (i + ov) := by
  intro fuel
  induction fuel with
  | zero => intro i h; omega
  | succ fuel ih =>
    intro i h
    by_cases hi : i < text.length
    · obtain ⟨rest, hrest, hjoin⟩ := ih (i + cs - ov) (by omega)
      refine ⟨((text.drop i).take cs) :: rest, ?_, ?_⟩
      · simp [chunkLoop, hi, hrest]
      · have h1 : (i + cs - ov) + ov = i + cs := by omega
        rw [h1] at hjoin
        rw [List.map_cons, List.flatten_cons, hjoin]
        rw [List.drop_take, List.drop_drop]
        have h2 : text.drop (i + cs) = (text.drop (ov + i)).drop (cs - ov) := by
          rw [List.drop_drop]
          congr 1
          omega
        rw [h2]
        have h3 : i + ov = ov + i := Nat.add_comm i ov
        rw [h3, List.take_append_drop]
    · refine ⟨[], by simp [chunkLoop, hi], ?_⟩
      have : text.length ≤ i + ov := by omega
      simp [List.drop_eq_nil_of_le this]

/-- C2: for `chunk_size > overlap ≥ 0` and enough fuel (the loop advances by at
least one position per iteration, so `length + 1` iterations always suffice),
`chunk_text` terminates, and concatenating its chunks with the leading
`overlap` characters removed from every chunk after the first reconstructs the
original text exactly; empty text yields zero chunks. -/
theorem chunk_text_reconstruction (text : List Char) (cs ov fuel : Nat)
    (hov : ov < cs) (hfuel : text.length < fuel) :
    ∃ out, chunk_text fuel text cs ov = some out ∧ reassemble ov out = text ∧
      (text = [] → out = []) := by
  by_cases hnil : text = []
  · subst hnil
    exact ⟨[], by simp [chunk_text], rfl, fun _ => rfl⟩
  · have hn : 0 < text.length := List.length_pos.mpr hnil
    cases fuel with
    | zero => omega
    | succ fuel =>
      obtain ⟨rest, hrest, hjoin⟩ := chunkLoop_spec text cs ov hov fuel (cs - ov) (by omega)
      refine ⟨(text.take cs) :: rest, ?_, ?_, fun h => absurd h hnil⟩
      · simp [chunk_text, hnil, chunkLoop, hn, hrest]
      · have h1 : (cs - ov) + ov = cs := by omega
        rw [h1] at hjoin
        simp [reassemble, hjoin]

theorem chunk_text_reconstruction_witness :
    ∃ out, chunk_text 3 ['a', 'b'] 2 1 = some out ∧ reassemble 1 out = ['a', 'b'] ∧
      ((['a', 'b'] : List Char) = [] → out = []) :=
  chunk_text_reconstruction ['a', 'b'] 2 1 3 (by decide) (by decide)

/-- C3: the code does NOT clamp the offset advance to a minimum forward step of
one.  With `overlap = chunk_size` (here both 1) on the non-empty text `"a"`,
the offset stays at `0` forever (`i = i + chunk_size - overlap = i`), so the
loop never terminates: no amount of fuel produces a result.  This contradicts
the claim that `chunk_text` still terminates for `overlap ≥ chunk_size`. -/
theorem chunk_text_diverges_when_overlap_eq_chunk_size :
    ∀ fuel, chunk_text fuel ['a'] 1 1 = none := by
  have key : ∀ fuel, chunkLoop ['a'] 1 1 fuel 0 = none := by
    intro fuel
    induction fuel with
    | zero => rfl
    | succ fuel ih =>
      show (chunkLoop ['a'] 1 1 fuel (0 + 1 - 1)).map _ = none
      simpa using congrArg (Option.map fun rest => ((['a'].drop 0).take 1) :: rest) ih
  intro fuel
  simpa [chunk_text] using key fuel

/-! ## Retrieval: REST-fallback response parsing in `retrieve_top_k` (embeddings.py)

```python
data = resp.json()
hits = data.get("result") or data.get("hits") or data.get("points") or []
out = []
for h in hits:
    if isinstance(h, dict) and "point" in h:
        pt = h["point"]
        pid = pt.get("id")
        payload = pt.get("payload", {}) or {}
        score = h.get("score")
        chunk = payload.get("chunk")
    else:
        pid = h.get("id")
        score = h.get("score")
        payload = h.get("payload", {}) or {}
        chunk = payload.get("chunk")
    out.append({"id": pid, "score": score, "chunk": chunk})
return out
```
-/

/-- JSON values as produced by `resp.json()`.  Numbers are carried opaquely
(`score` is a float in Python, but the parsing code only moves scores around
and never computes with them, so an integer stand-in carries the same data
flow); JSON `null` maps to Python `None`, modelled as `JVal.null`. -/
inductive JVal where
  | null : JVal
  | jstr : String → JVal
  | jnum : Int → JVal
  | jarr : List JVal → JVal
  | jobj : List (String × JVal) → JVal

/-- The normalized record `{"id": pid, "score": score, "chunk": chunk}` built by
`retrieve_top_k`; each field is a raw JSON value or Python `None` (`none`). -/
structure RetrievedRecord where
  id : Option JVal
  score : Option JVal
  chunk : Option JVal

/-- Raw key lookup in a JSON object (Python dicts have unique keys, so the
first hit of `find?` is the value). -/
def jLookup (fs : List (String × JVal)) (k : String) : Option JVal :=
  (fs.find? (fun p => p.1 == k)).map Prod.snd

/-- Python `d.get(k)`.  The outer `none` models an `AttributeError` (receiver is
not a dict); the inner `Option` is Python `None` (key missing or stored JSON
`null`, which `json.loads` also maps to `None`). -/
def dictGet (v : JVal) (k : String) : Option (Option JVal) :=
  match v with
  | .jobj fs =>
    some (match jLookup fs k with
          | some .null => none
          | some w => some w
          | none => none)
  | _ => none

/-- Python `d.get(k, default)` (returns the stored value even when it is
`null`). -/
def dictGetD (v : JVal) (k : String) (d : JVal) : Option JVal :=
  match v with
  | .jobj fs =>
    some (match jLookup fs k with
          | some w => w
          | none => d)
  | _ => none

/-- Python truthiness of a JSON value (`None`, `""`, `0`, `[]`, `{}` are
falsy). -/
def jTruthy : JVal → Bool
  | .null => false
  | .jstr s => !(s == "")
  | .jnum n => !(n == 0)
  | .jarr xs => !xs.isEmpty
  | .jobj fs => !fs.isEmpty

/-- Python `a or b` where `a` is the result of a `.get` (missing key gives
`None`, which is falsy). -/
def pyOr (a : Option JVal) (b : JVal) : JVal :=
  match a with
  | some v => if jTruthy v then v else b
  | none => b

/-- `hits = data.get("result") or data.get("hits") or data.get("points") or []`. -/
def hitsOf (fs : List (String × JVal)) : JVal :=
  pyOr (jLookup fs "result")
    (pyOr (jLookup fs "hits")
      (pyOr (jLookup fs "points") (.jarr [])))

/-- The `else` branch of the per-hit normalization (flat record shape); also
reached when the hit is not a dict at all, in which case the first `.get`
raises (`none`). -/
def flatHit (h : JVal) : Option RetrievedRecord := do
  let pid ← dictGet h "id"
  let score ← dictGet h "score"
  let pv ← dictGetD h "payload" (.jobj [])
  let payload := if jTruthy pv then pv else JVal.jobj []
  let chunk ← dictGet payload "chunk"
  pure ⟨pid, score, chunk⟩

/-- Per-hit normalization: `if isinstance(h, dict) and "point" in h` takes the
nested-`point` branch (key presence, even for a `null` value), otherwise the
flat branch. -/
def parseHit (h : JVal) : Option RetrievedRecord :=
  match h with
  | .jobj fs =>
    match jLookup fs "point" with
    | some pt => do
        let pid ← dictGet pt "id"
        let pv ← dictGetD pt "payload" (.jobj [])
        let payload := if jTruthy pv then pv else JVal.jobj []
        let score ← dictGet (JVal.jobj fs) "score"
        let chunk ← dictGet payload "chunk"
        pure ⟨pid, score, chunk⟩
    | none => flatHit (.jobj fs)
  | other => flatHit other

/-- The REST-fallback parsing stage of `retrieve_top_k`: extract the hit list
and normalize each hit.  `none` models the exception path (any parsing error is
re-raised as a `RuntimeError` by the surrounding `except`); iterating a
non-list hit container also errors out on the per-hit `.get` calls. -/
def retrieve_top_k_parse (data : JVal) : Option (List RetrievedRecord) :=
  match data with
  | .jobj fs =>
    match hitsOf fs with
    | .jarr l => l.mapM parseHit
    | _ => none
  | _ => none

/-- The same logical hit in the three known envelope shapes. -/
def hitFlat : JVal :=
  .jobj [("id", .jnum 7), ("score", .jnum 9), ("payload", .jobj [("chunk", .jstr "boom")])]

def dataFlat : JVal := .jobj [("result", .jarr [hitFlat])]

def dataPoint : JVal :=
  .jobj [("result", .jarr [.jobj
    [("point", .jobj [("id", .jnum 7), ("payload", .jobj [("chunk", .jstr "boom")])]),
     ("score", .jnum 9)]])]

def dataAlt : JVal := .jobj [("hits", .jarr [hitFlat])]

/-- C6: the three known REST response envelope shapes carrying the same logical
hit — flat `{id, score, payload}` record under `"result"`, record nested under
a `"point"` sub-record, and the hit list under the alternate top-level key
`"hits"` — all normalize to the identical record `{id, score, chunk}`. -/
theorem retrieve_normalization :
    retrieve_top_k_parse dataFlat
      = some [⟨some (.jnum 7), some (.jnum 9), some (.jstr "boom")⟩] ∧
    retrieve_top_k_parse dataPoint = retrieve_top_k_parse dataFlat ∧
    retrieve_top_k_parse dataAlt = retrieve_top_k_parse dataFlat :=
  ⟨rfl, rfl, rfl⟩

/-- C7: when the REST response object carries none of the known top-level
hit-list keys, every `.get` in the `or`-chain yields `None`, the hit list
defaults to `[]`, and parsing returns an empty record list instead of
raising. -/
theorem rest_missing_keys_gives_empty (fs : List (String × JVal))
    (h : ∀ p ∈ fs, p.1 ≠ "result" ∧ p.1 ≠ "hits" ∧ p.1 ≠ "points") :
    retrieve_top_k_parse (.jobj fs) = some [] := by
  have hfind : ∀ k : String, (k = "result" ∨ k = "hits" ∨ k = "points") →
      jLookup fs k = none := by
    intro k hk
    have : fs.find? (fun p => p.1 == k) = none := by
      rw [List.find?_eq_none]
      intro p hp
      obtain ⟨h1, h2, h3⟩ := h p hp
      rcases hk with rfl | rfl | rfl <;> simp [h1, h2, h3]
    simp [jLookup, this]
  have e1 := hfind "result" (Or.inl rfl)
  have e2 := hfind "hits" (Or.inr (Or.inl rfl))
  have e3 := hfind "points" (Or.inr (Or.inr rfl))
  simp only [retrieve_top_k_parse, hitsOf, e1, e2, e3, pyOr]
  rfl

theorem rest_missing_keys_gives_empty_witness :
    retrieve_top_k_parse (.jobj [("status", .jstr "ok")]) = some [] :=
  rest_missing_keys_gives_empty [("status", .jstr "ok")] (by decide)

/-! ## Preprocessing: `extract_relevant_lines` and `summarize_metadata` (preprocess.py)

The error-keyword pattern is
`\b(ERROR|FAIL|FAILED|EXCEPTION|EXCEPTION:|TRACEBACK|TRACEBACK \(most recent call last\)|Stacktrace|panic|segfault|exit code|fatal)\b`
with `re.I`: an alternation of fixed words framed by word boundaries, searched
left to right, alternatives tried in source order at each position.

The stack-starter pattern is built as
`re.compile('|'.join(re.escape(s) for s in STACK_STARTERS), re.I)`.
Because every alternative is passed through `re.escape`, each one matches its
own source text *literally* (e.g. the third alternative matches the literal
character sequence `at [\w.$]+\(.*\)`, not Java frame lines), so the whole
pattern is a case-insensitive substring test against five literal strings.

Word characters are modelled as ASCII alphanumerics plus underscore, and
`str.splitlines` / `str.lower` are modelled on `'\n'` / ASCII case only — the
universal-newline and Unicode generalizations of Python never matter for the
properties proved here.
-/

/-- `\w` (ASCII fragment). -/
def isWordChar (c : Char) : Bool := c.isAlphanum || c == '_'

/-- Wordness of the character at position `i`; out-of-range counts as
non-word, exactly as `\b` treats the ends of the string. -/
def wordAt (line : List Char) (i : Nat) : Bool := isWordChar (line.getD i ' ')

/-- `\b` at position `p`: the characters on the two sides of the position
differ in wordness. -/
def boundaryAt (line : List Char) (p : Nat) : Bool :=
  (if p = 0 then false else wordAt line (p - 1)) != wordAt line p

/-- One alternative `kw` (stored lowercase) matches at position `p`:
the slice of the line equals `kw` case-insensitively and both ends of the
slice sit on word boundaries. -/
def matchKwAt (line : List Char) (p : Nat) (kw : List Char) : Bool :=
  (((line.drop p).take kw.length).map Char.toLower == kw)
    && boundaryAt line p && boundaryAt line (p + kw.length)

/-- The alternatives of `ERROR_KEYWORDS_RE`, lowercased, in source order. -/
def ERROR_KEYWORDS : List (List Char) :=
  [ "error".data, "fail".data, "failed".data, "exception".data, "exception:".data,
    "traceback".data, "traceback (most recent call last)".data, "stacktrace".data,
    "panic".data, "segfault".data, "exit code".data, "fatal".data ]

/-- `ERROR_KEYWORDS_RE.search(line)`: leftmost position wins; at a given
position the alternatives are tried in source order; the result is `group(0)`,
the matched slice of the original line. -/
def errorKeywordSearch (line : List Char) : Option (List Char) :=
  (List.range (line.length + 1)).findSome? fun p =>
    ERROR_KEYWORDS.findSome? fun kw =>
      if matchKwAt line p kw then some ((line.drop p).take kw.length) else none

/-- Does `l` start with `pat`? -/
def startsWithB : List Char → List Char → Bool
  | [], _ => true
  | _ :: _, [] => false
  | a :: as, b :: bs => a == b && startsWithB as bs

/-- Is `pat` a contiguous substring of the second argument? -/
def containsSub (pat : List Char) : List Char → Bool
  | [] => startsWithB pat []
  | c :: rest => startsWithB pat (c :: rest) || containsSub pat rest

/-- The `STACK_STARTERS` entries after `re.escape`: literal strings, stored
lowercase for the `re.I` comparison. -/
def STACK_STARTERS : List (List Char) :=
  [ "traceback (most recent call last):".data,
    "exception in thread".data,
    "at [\\w.$]+\\(.*\\)".data,
    "file \".*\", line \\d+".data,
    "panic: ".data ]

/-- `STACK_STARTERS_RE.search(line)` as a predicate: case-insensitive literal
substring containment of any alternative. -/
def stackStarterSearch (line : List Char) : Bool :=
  STACK_STARTERS.any fun pat => containsSub pat (line.map Char.toLower)

/-- `text.splitlines()` restricted to `'\n'` boundaries: split on every
newline, except that a trailing newline does not open a final empty line, and
empty text has no lines. -/
def splitOnNl : List Char → List (List Char)
  | [] => [[]]
  | c :: rest =>
    if c = '\n' then [] :: splitOnNl rest
    else
      match splitOnNl rest with
      | [] => [[c]]
      | seg :: segs => (c :: seg) :: segs

def splitLines (text : List Char) : List (List Char) :=
  if text = [] then []
  else if text.getLast? = some '\n' then (splitOnNl text).dropLast
  else splitOnNl text

/-- Index `j` is added to `matched_indices` by one of the two marking passes:
either some line `i` matches the keyword pattern and `j` lies in the context
window `range(max(0, i - context_lines), min(n, i + context_lines + 1))`, or
some line `i` matches a stack starter and `j` lies in the growth window
`range(i, min(n, i + 200))` (whose per-line "end of trace" heuristic has a
`pass` body, so every index of the window is added unconditionally). -/
def lineMarked (lines : List (List Char)) (context_lines j : Nat) : Bool :=
  ((List.range lines.length).any fun i =>
      (errorKeywordSearch (lines.getD i [])).isSome
        && decide (i - context_lines ≤ j)
        && decide (j < min lines.length (i + context_lines + 1)))
  || ((List.range lines.length).any fun i =>
      stackStarterSearch (lines.getD i [])
        && decide (i ≤ j)
        && decide (j < min lines.length (i + 200)))

/-- `sorted(matched_indices)`: both passes only ever add indices below `n`, so
the sorted duplicate-free list of the set is the ordered filter of
`range n` by membership.  (The theorem for C8 re-derives this list from a
literal loop-by-loop embedding of the two passes.) -/
def sortedIdx (lines : List (List Char)) (context_lines : Nat) : List Nat :=
  (List.range lines.length).filter fun j => lineMarked lines context_lines j

/-- The block-building loop over `sorted_idx[1:]`, carrying `block_start` and
`block_end`; a new index merges into the current block when
`idx <= block_end + 1`, otherwise the block is flushed. -/
def buildBlocks (block_start block_end : Nat) : List Nat → List (Nat × Nat)
  | [] => [(block_start, block_end)]
  | idx :: rest =>
    if idx ≤ block_end + 1 then buildBlocks block_start idx rest
    else (block_start, block_end) :: buildBlocks idx idx rest

def blocksOf : List Nat → List (Nat × Nat)
  | [] => []
  | s :: rest => buildBlocks s s rest

/-- `sep.join(parts)`. -/
def joinSep (sep : List Char) : List (List Char) → List Char
  | [] => []
  | [x] => x
  | x :: rest => x ++ sep ++ joinSep sep rest

def NEWLINE : List Char := ['\n']

/-- The block delimiter `"\n\n---\n\n"` from the source. -/
def BLOCK_DELIM : List Char := "\n\n---\n\n".data

/-- `"\n".join(lines[block_start:block_end+1])`. -/
def renderBlock (lines : List (List Char)) (r : Nat × Nat) : List Char :=
  joinSep NEWLINE ((lines.drop r.1).take (r.2 + 1 - r.1))

/-- The no-match fallback `"\n".join(lines[max(0, n - max_lines):])`, also
reused by the oversize guard. -/
def tailFallback (lines : List (List Char)) (max_lines : Nat) : List Char :=
  joinSep NEWLINE (lines.drop (lines.length - max_lines))

/-- `max_chars = 200_000` from the source. -/
def max_chars : Nat := 200000

/-- `extract_relevant_lines` from preprocess.py (defaults in the source:
`max_lines = 500`, `context_lines = 2`). -/
def extract_relevant_lines (text : List Char) (max_lines context_lines : Nat) : List Char :=
  if text = [] then []
  else
    let lines := splitLines text
    let sidx := sortedIdx lines context_lines
    if sidx = [] then tailFallback lines max_lines
    else
      let combined := joinSep BLOCK_DELIM ((blocksOf sidx).map (renderBlock lines))
      if max_chars < combined.length then tailFallback lines max_lines
      else combined

/-- Lexicographic order on strings (Python `sorted` on `str`). -/
def lexLe : List Char → List Char → Bool
  | [], _ => true
  | _ :: _, [] => false
  | a :: as, b :: bs => if a < b then true else if b < a then false else lexLe as bs

/-- The result dictionary of `summarize_metadata`. -/
structure Metadata where
  total_lines : Nat
  error_line_count : Nat
  contains_traceback : Bool
  detected_keywords : List (List Char)

/-- `summarize_metadata` from preprocess.py.  `detected` is a set of the
uppercased `group(0)` texts of the keyword matches; the result field is
`sorted(list(detected))[:10]` (modelled as dedup, then sort, then take 10 —
the same sorted duplicate-free sequence). -/
def summarize_metadata (text : List Char) : Metadata :=
  if text = [] then ⟨0, 0, false, []⟩
  else
    let lines := splitLines text
    { total_lines := lines.length
      error_line_count := lines.countP fun l => (errorKeywordSearch l).isSome
      contains_traceback := lines.any fun l =>
        containsSub ("traceback".data) (l.map Char.toLower) || stackStarterSearch l
      detected_keywords :=
        (((lines.filterMap fun l =>
            (errorKeywordSearch l).map (List.map Char.toUpper)).dedup).mergeSort lexLe).take 10 }

/-! ### Helper lemmas for the extraction theorems -/

theorem mem_of_getLast?_eq {α} (l : List α) (c : α) (h : l.getLast? = some c) : c ∈ l := by
  induction l with
  | nil => simp [List.getLast?] at h
  | cons a t ih =>
    cases t with
    | nil => simp [List.getLast?] at h; simp [h]
    | cons b t' =>
      rw [List.getLast?_cons_cons] at h
      exact List.mem_cons_of_mem _ (ih h)

theorem splitOnNl_no_newline (l : List Char) (h : '\n' ∉ l) : splitOnNl l = [l] := by
  induction l with
  | nil => rfl
  | cons c rest ih =>
    have hc : ¬ (c = '\n') := fun hcc => h (by rw [hcc]; exact List.mem_cons_self ..)
    have hr : '\n' ∉ rest := fun hm => h (List.mem_cons_of_mem _ hm)
    simp only [splitOnNl, if_neg hc, ih hr]

theorem lineMarked_eq_false (lines : List (List Char)) (cl j : Nat)
    (h : ∀ line ∈ lines, errorKeywordSearch line = none ∧ stackStarterSearch line = false) :
    lineMarked lines cl j = false := by
  unfold lineMarked
  rw [Bool.or_eq_false_iff]
  constructor <;>
  · rw [List.any_eq_false]
    intro i hi
    rw [List.mem_range] at hi
    have hg : lines.getD i [] = lines[i] := List.getD_eq_getElem _ _ hi
    obtain ⟨h1, h2⟩ := h _ (List.getElem_mem hi)
    rw [hg]
    simp [h1, h2]

theorem sortedIdx_eq_nil (lines : List (List Char)) (cl : Nat)
    (h : ∀ line ∈ lines, errorKeywordSearch line = none ∧ stackStarterSearch line = false) :
    sortedIdx lines cl = [] := by
  unfold sortedIdx
  rw [List.filter_eq_nil_iff]
  intro j _
  simp [lineMarked_eq_false lines cl j h]

theorem slice_of_replicate_all_a (n p L : Nat) :
    ∀ x ∈ ((List.replicate n 'a').drop p).take L, x = 'a' := by
  intro x hx
  have h1 : x ∈ (List.replicate n 'a').drop p := List.take_subset _ _ hx
  have h2 : x ∈ List.replicate n 'a' := List.drop_subset _ _ h1
  exact List.eq_of_mem_replicate h2

theorem matchKwAt_replicate_false (n p : Nat) (kw : List Char) (hkw : kw ∈ ERROR_KEYWORDS) :
    matchKwAt (List.replicate n 'a') p kw = false := by
  by_contra hmk
  rw [Bool.not_eq_false] at hmk
  unfold matchKwAt at hmk
  simp only [Bool.and_eq_true, beq_iff_eq] at hmk
  have heq : (((List.replicate n 'a').drop p).take kw.length).map Char.toLower = kw :=
    hmk.1.1
  have hall : ∀ x ∈ kw, x = 'a' := by
    intro x hx
    rw [← heq] at hx
    obtain ⟨y, hy, hxy⟩ := List.mem_map.mp hx
    have hya : y = 'a' := slice_of_replicate_all_a n p kw.length y hy
    rw [← hxy, hya]
    decide
  simp only [ERROR_KEYWORDS, List.mem_cons, List.not_mem_nil, or_false] at hkw
  rcases hkw with rfl | rfl | rfl | rfl | rfl | rfl | rfl | rfl | rfl | rfl | rfl | rfl <;>
    exact absurd hall (by decide)

theorem errorKeywordSearch_replicate (n : Nat) :
    errorKeywordSearch (List.replicate n 'a') = none := by
  unfold errorKeywordSearch
  rw [List.findSome?_eq_none_iff]
  intro p _
  rw [List.findSome?_eq_none_iff]
  intro kw hkw
  simp [matchKwAt_replicate_false n p kw hkw]

theorem startsWithB_replicate (pat : List Char) :
    ∀ n, startsWithB pat (List.replicate n 'a') = true → ∀ x ∈ pat, x = 'a' := by
  induction pat with
  | nil =>
    intro n _ x hx
    simp at hx
  | cons a as ih =>
    intro n h x hx
    cases n with
    | zero => simp [startsWithB] at h
    | succ m =>
      rw [List.replicate_succ] at h
      simp only [startsWithB, Bool.and_eq_true, beq_iff_eq] at h
      obtain ⟨ha, hrest⟩ := h
      rcases List.mem_cons.mp hx with rfl | hx'
      · exact ha
      · exact ih m hrest x hx'

theorem containsSub_replicate (pat : List Char) (n : Nat)
    (h : containsSub pat (List.replicate n 'a') = true) : ∀ x ∈ pat, x = 'a' := by
  induction n with
  | zero =>
    cases pat with
    | nil => intro x hx; simp at hx
    | cons a as => simp [containsSub, startsWithB] at h
  | succ m ih =>
    rw [List.replicate_succ] at h
    simp only [containsSub, Bool.or_eq_true] at h
    rcases h with h | h
    · exact startsWithB_replicate pat (m + 1) (by rw [List.replicate_succ]; exact h)
    · exact ih h

theorem stackStarterSearch_replicate (n : Nat) :
    stackStarterSearch (List.replicate n 'a') = false := by
  unfold stackStarterSearch
  rw [List.any_eq_false]
  intro pat hpat
  have hmap : (List.replicate n 'a').map Char.toLower = List.replicate n 'a' := by
    rw [List.map_replicate]
    congr 1
  rw [hmap]
  intro hc
  have hall := containsSub_replicate pat n hc
  simp only [STACK_STARTERS, List.mem_cons, List.not_mem_nil, or_false] at hpat
  rcases hpat with rfl | rfl | rfl | rfl | rfl <;> exact absurd hall (by decide)

/-! ### C5: no-match fallback -/

/-- C5: for non-empty text in which no line matches the error-keyword pattern
or a stack-starter pattern, `extract_relevant_lines` returns exactly the last
`max_lines` lines joined by newline — which is all the lines when fewer than
`max_lines` exist. -/
theorem extraction_fallback (text : List Char) (max_lines cl : Nat)
    (hne : text ≠ [])
    (hnm : ∀ line ∈ splitLines text,
      errorKeywordSearch line = none ∧ stackStarterSearch line = false) :
    extract_relevant_lines text max_lines cl
      = joinSep NEWLINE ((splitLines text).drop ((splitLines text).length - max_lines)) ∧
    ((splitLines text).length ≤ max_lines →
      extract_relevant_lines text max_lines cl = joinSep NEWLINE (splitLines text)) := by
  have hsi := sortedIdx_eq_nil (splitLines text) cl hnm
  constructor
  · simp [extract_relevant_lines, hne, hsi, tailFallback]
  · intro hlen
    have h0 : (splitLines text).length - max_lines = 0 := by omega
    simp [extract_relevant_lines, hne, hsi, tailFallback, h0]

theorem extraction_fallback_witness :
    ("ok\nfine".data ≠ ([] : List Char)) ∧
    (extract_relevant_lines ("ok\nfine".data) 500 2
        = joinSep NEWLINE ((splitLines ("ok\nfine".data)).drop
            ((splitLines ("ok\nfine".data)).length - 500)) ∧
      ((splitLines ("ok\nfine".data)).length ≤ 500 →
        extract_relevant_lines ("ok\nfine".data) 500 2
          = joinSep NEWLINE (splitLines ("ok\nfine".data)))) :=
  ⟨by decide, extraction_fallback ("ok\nfine".data) 500 2 (by decide) (by decide)⟩

/-! ### C10: the stack-trace growth window is unconditional -/

/-- C10: if line `i` matches a stack-starter pattern, every index of the window
`range(i, min(n, i + 200))` is marked relevant, unconditionally — the
"end of trace" heuristic inside the growth loop has a `pass` body, so nothing
about the content of the subsequent lines can stop the window before the
200-line cap or the end of the log. -/
theorem stack_window_unconditional (text : List Char) (cl i j : Nat)
    (hi : i < (splitLines text).length)
    (hs : stackStarterSearch ((splitLines text).getD i []) = true)
    (hij : i ≤ j) (hj : j < min (splitLines text).length (i + 200)) :
    j ∈ sortedIdx (splitLines text) cl := by
  unfold sortedIdx
  rw [List.mem_filter]
  refine ⟨List.mem_range.mpr (by omega), ?_⟩
  unfold lineMarked
  rw [Bool.or_eq_true]
  right
  rw [List.any_eq_true]
  refine ⟨i, List.mem_range.mpr hi, ?_⟩
  rw [hs]
  simp only [Bool.true_and, Bool.and_eq_true, decide_eq_true_eq]
  exact ⟨hij, hj⟩

theorem stack_window_unconditional_witness :
    stackStarterSearch ((splitLines ("panic: boom\nall calm\nnothing here".data)).getD 0 [])
      = true ∧
    2 ∈ sortedIdx (splitLines ("panic: boom\nall calm\nnothing here".data)) 2 :=
  ⟨by decide,
   stack_window_unconditional ("panic: boom\nall calm\nnothing here".data) 2 0 2
     (by decide) (by decide) (by decide) (by decide)⟩

/-! ### C4: the oversize guard and its limits -/

/-- The block-joined rendering of the matched indices of `text`. -/
def combinedBlocks (text : List Char) (cl : Nat) : List Char :=
  joinSep BLOCK_DELIM
    ((blocksOf (sortedIdx (splitLines text) cl)).map (renderBlock (splitLines text)))

/-- A log that is a single run of `n` letters `a` contains no match, so
extraction takes the no-match fallback and returns the line unchanged —
whatever its length.  (Proved for symbolic `n` so that instantiating it at a
large literal needs no evaluation of the list.) -/
theorem extract_replicate_a (n : Nat) (hn : 0 < n) :
    extract_relevant_lines (List.replicate n 'a') 500 2 = List.replicate n 'a' := by
  have hne : List.replicate n 'a' ≠ [] := by
    intro h
    have h0 := congrArg List.length h
    rw [List.length_replicate] at h0
    simp at h0
    omega
  have hnn : ('\n' : Char) ∉ List.replicate n 'a' := by
    intro h
    have := List.eq_of_mem_replicate h
    exact absurd this (by decide)
  have hlast : ¬ ((List.replicate n 'a').getLast? = some '\n') := by
    intro h
    exact hnn (mem_of_getLast?_eq _ _ h)
  have hsplit : splitLines (List.replicate n 'a') = [List.replicate n 'a'] := by
    unfold splitLines
    rw [if_neg hne, if_neg hlast, splitOnNl_no_newline _ hnn]
  have hmark : sortedIdx (splitLines (List.replicate n 'a')) 2 = [] := by
    apply sortedIdx_eq_nil
    rw [hsplit]
    intro line hline
    rw [List.mem_singleton] at hline
    subst hline
    exact ⟨errorKeywordSearch_replicate n, stackStarterSearch_replicate n⟩
  have hval : extract_relevant_lines (List.replicate n 'a') 500 2
      = tailFallback (splitLines (List.replicate n 'a')) 500 := by
    unfold extract_relevant_lines
    rw [if_neg hne]
    simp [hmark]
  rw [hval, hsplit]
  unfold tailFallback
  simp [joinSep]

/-- C4 counterexample: the length bound does not hold for every input.  A
single 200,001-character line with no match takes the no-match fallback, which
returns the line unchanged — 200,001 characters, above `max_chars`.  (The
oversize guard itself also re-derives through this same unbounded fallback.) -/
theorem extraction_size_counterexample :
    ¬ ((extract_relevant_lines (List.replicate 200001 'a') 500 2).length ≤ max_chars) := by
  rw [extract_replicate_a 200001 (by norm_num), List.length_replicate]
  unfold max_chars
  omega

/-- C4 (amended): the guard governs only the block-rendering path.  When the
marked-index set is non-empty and the block-joined rendering exceeds
`max_chars`, the result is re-derived via the same tail-window fallback as the
no-match case (never truncated mid-block); when the rendering fits, it is
returned as-is and the result is then within `max_chars`. -/
theorem extraction_size_guard (text : List Char) (max_lines cl : Nat)
    (hne : text ≠ [])
    (hmk : sortedIdx (splitLines text) cl ≠ []) :
    (max_chars < (combinedBlocks text cl).length →
      extract_relevant_lines text max_lines cl = tailFallback (splitLines text) max_lines) ∧
    ((combinedBlocks text cl).length ≤ max_chars →
      extract_relevant_lines text max_lines cl = combinedBlocks text cl ∧
      (extract_relevant_lines text max_lines cl).length ≤ max_chars) := by
  constructor
  · intro hbig
    rw [combinedBlocks] at hbig
    simp [extract_relevant_lines, hne, hmk, hbig]
  · intro hsmall
    have hnb : ¬ (max_chars < (combinedBlocks text cl).length) := not_lt.mpr hsmall
    rw [combinedBlocks] at hnb
    constructor
    · simp [extract_relevant_lines, hne, hmk, hnb, combinedBlocks]
    · have : extract_relevant_lines text max_lines cl = combinedBlocks text cl := by
        simp [extract_relevant_lines, hne, hmk, hnb, combinedBlocks]
      rw [this]
      exact hsmall

theorem extraction_size_guard_witness :
    (sortedIdx (splitLines ("ERROR boom".data)) 2 ≠ []) ∧
    ((combinedBlocks ("ERROR boom".data) 2).length ≤ max_chars ∧
      extract_relevant_lines ("ERROR boom".data) 500 2 = combinedBlocks ("ERROR boom".data) 2) :=
  ⟨by decide,
   by decide,
   ((extraction_size_guard ("ERROR boom".data) 500 2 (by decide) (by decide)).2 (by decide)).1⟩

/-! ### C9: `detected_keywords` is sorted, distinct, capped, uppercased -/

theorem lexLe_total (x y : List Char) : lexLe x y = true ∨ lexLe y x = true := by
  induction x generalizing y with
  | nil => left; rfl
  | cons a as ih =>
    cases y with
    | nil => right; rfl
    | cons b bs =>
      rcases lt_trichotomy a b with hab | hab | hab
      · left; simp [lexLe, hab]
      · subst hab
        rcases ih bs with h | h
        · left; simp [lexLe, h]
        · right; simp [lexLe, h]
      · right; simp [lexLe, hab]

theorem lexLe_trans (x y z : List Char) (h1 : lexLe x y = true) (h2 : lexLe y z = true) :
    lexLe x z = true := by
  induction x generalizing y z with
  | nil => rfl
  | cons a as ih =>
    cases y with
    | nil => simp [lexLe] at h1
    | cons b bs =>
      cases z with
      | nil => simp [lexLe] at h2
      | cons c cs =>
        simp only [lexLe] at h1 h2 ⊢
        rcases lt_trichotomy a b with hab | hab | hab
        · rcases lt_trichotomy b c with hbc | hbc | hbc
          · simp [lt_trans hab hbc]
          · subst hbc; simp [hab]
          · rw [if_neg (asymm hbc), if_pos hbc] at h2; exact absurd h2 (by simp)
        · subst hab
          rw [if_neg (lt_irrefl a), if_neg (lt_irrefl a)] at h1
          rcases lt_trichotomy a c with hac | hac | hac
          · simp [hac]
          · subst hac
            rw [if_neg (lt_irrefl a), if_neg (lt_irrefl a)] at h2 ⊢
            exact ih bs cs h1 h2
          · rw [if_neg (asymm hac), if_pos hac] at h2; exact absurd h2 (by simp)
        · rw [if_neg (asymm hab), if_pos hab] at h1; exact absurd h1 (by simp)

/-- C9: for every input, `detected_keywords` is lexicographically sorted, has
no duplicates, contains at most 10 entries, and every entry is the uppercased
`group(0)` text of a keyword match on some line — so the result is independent
of the order and multiplicity of keyword occurrences in the input. -/
theorem metadata_detected_sorted_capped (text : List Char) :
    ((summarize_metadata text).detected_keywords).Pairwise (fun a b => lexLe a b = true) ∧
    ((summarize_metadata text).detected_keywords).Nodup ∧
    ((summarize_metadata text).detected_keywords).length ≤ 10 ∧
    ∀ s ∈ (summarize_metadata text).detected_keywords,
      ∃ l ∈ splitLines text, ∃ m, errorKeywordSearch l = some m ∧ s = m.map Char.toUpper := by
  by_cases hne : text = []
  · subst hne
    have hdk : (summarize_metadata []).detected_keywords = [] := rfl
    rw [hdk]
    exact ⟨List.Pairwise.nil, List.nodup_nil, by simp, by simp⟩
  · have hdk : (summarize_metadata text).detected_keywords
        = ((((splitLines text).filterMap fun l =>
            (errorKeywordSearch l).map (List.map Char.toUpper)).dedup).mergeSort lexLe).take 10 := by
      simp [summarize_metadata, hne]
    rw [hdk]
    have hsorted := List.sorted_mergeSort (fun a b c => lexLe_trans a b c)
      (fun a b => by simpa using lexLe_total a b)
      (((splitLines text).filterMap fun l =>
        (errorKeywordSearch l).map (List.map Char.toUpper)).dedup)
    have hperm := List.mergeSort_perm
      (((splitLines text).filterMap fun l =>
        (errorKeywordSearch l).map (List.map Char.toUpper)).dedup) lexLe
    refine ⟨?_, ?_, ?_, ?_⟩
    · exact hsorted.sublist (List.take_sublist ..)
    · exact (hperm.nodup_iff.mpr (List.nodup_dedup _)).sublist (List.take_sublist ..)
    · rw [List.length_take]
      exact min_le_left ..
    · intro s hs
      have h1 : s ∈ (((splitLines text).filterMap fun l =>
          (errorKeywordSearch l).map (List.map Char.toUpper)).dedup).mergeSort lexLe :=
        List.take_subset _ _ hs
      have h2 := List.dedup_subset _ (hperm.mem_iff.mp h1)
      obtain ⟨l, hl, hml⟩ := List.mem_filterMap.mp h2
      obtain ⟨m, hm, hmu⟩ := Option.map_eq_some'.mp hml
      exact ⟨l, hl, m, hm, hmu.symm⟩

theorem metadata_detected_sorted_capped_witness :
    ((summarize_metadata ("ERROR a\nboring\nerror b".data)).detected_keywords).Pairwise
      (fun a b => lexLe a b = true) ∧
    ((summarize_metadata ("ERROR a\nboring\nerror b".data)).detected_keywords).Nodup ∧
    ((summarize_metadata ("ERROR a\nboring\nerror b".data)).detected_keywords).length ≤ 10 ∧
    ∀ s ∈ (summarize_metadata ("ERROR a\nboring\nerror b".data)).detected_keywords,
      ∃ l ∈ splitLines ("ERROR a\nboring\nerror b".data),
        ∃ m, errorKeywordSearch l = some m ∧ s = m.map Char.toUpper :=
  metadata_detected_sorted_capped ("ERROR a\nboring\nerror b".data)

/-! ### C1: block building merges adjacent indices, blocks are separated

The invariants of the flush loop: it is entered with `block_start ≤ block_end`
and the not-yet-consumed indices strictly increasing above `block_end`. -/

theorem buildBlocks_valid : ∀ (l : List Nat) (bs be : Nat), bs ≤ be →
    List.Chain' (· < ·) (be :: l) →
    ∀ r ∈ buildBlocks bs be l, r.1 ≤ r.2 := by
  intro l
  induction l with
  | nil =>
    intro bs be hbe _ r hr
    simp only [buildBlocks, List.mem_singleton] at hr
    subst hr
    exact hbe
  | cons idx rest ih =>
    intro bs be hbe hch r hr
    rw [List.chain'_cons] at hch
    obtain ⟨hlt, hch'⟩ := hch
    simp only [buildBlocks] at hr
    by_cases hm : idx ≤ be + 1
    · rw [if_pos hm] at hr
      exact ih bs idx (by omega) hch' r hr
    · rw [if_neg hm] at hr
      rcases List.mem_cons.mp hr with rfl | hr'
      · exact hbe
      · exact ih idx idx le_rfl hch' r hr'

theorem buildBlocks_start_lb : ∀ (l : List Nat) (bs be : Nat), bs ≤ be →
    List.Chain' (· < ·) (be :: l) →
    ∀ r ∈ buildBlocks bs be l, bs ≤ r.1 := by
  intro l
  induction l with
  | nil =>
    intro bs be _ _ r hr
    simp only [buildBlocks, List.mem_singleton] at hr
    subst hr
    exact le_rfl
  | cons idx rest ih =>
    intro bs be hbe hch r hr
    rw [List.chain'_cons] at hch
    obtain ⟨hlt, hch'⟩ := hch
    simp only [buildBlocks] at hr
    by_cases hm : idx ≤ be + 1
    · rw [if_pos hm] at hr
      exact ih bs idx (by omega) hch' r hr
    · rw [if_neg hm] at hr
      rcases List.mem_cons.mp hr with rfl | hr'
      · exact le_rfl
      · exact le_trans (by omega) (ih idx idx le_rfl hch' r hr')

theorem buildBlocks_sep : ∀ (l : List Nat) (bs be : Nat), bs ≤ be →
    List.Chain' (· < ·) (be :: l) →
    (buildBlocks bs be l).Pairwise (fun r1 r2 => r1.2 + 1 < r2.1) := by
  intro l
  induction l with
  | nil =>
    intro bs be _ _
    simp [buildBlocks]
  | cons idx rest ih =>
    intro bs be hbe hch
    rw [List.chain'_cons] at hch
    obtain ⟨hlt, hch'⟩ := hch
    simp only [buildBlocks]
    by_cases hm : idx ≤ be + 1
    · rw [if_pos hm]
      exact ih bs idx (by omega) hch'
    · rw [if_neg hm]
      rw [List.pairwise_cons]
      refine ⟨?_, ih idx idx le_rfl hch'⟩
      intro r hr
      have := buildBlocks_start_lb rest idx idx le_rfl hch' r hr
      omega

theorem buildBlocks_cover : ∀ (l : List Nat) (bs be : Nat), bs ≤ be →
    List.Chain' (· < ·) (be :: l) →
    ∀ r ∈ buildBlocks bs be l, ∀ k, r.1 ≤ k → k ≤ r.2 → ((bs ≤ k ∧ k ≤ be) ∨ k ∈ l) := by
  intro l
  induction l with
  | nil =>
    intro bs be _ _ r hr k hk1 hk2
    simp only [buildBlocks, List.mem_singleton] at hr
    subst hr
    exact Or.inl ⟨hk1, hk2⟩
  | cons idx rest ih =>
    intro bs be hbe hch r hr k hk1 hk2
    rw [List.chain'_cons] at hch
    obtain ⟨hlt, hch'⟩ := hch
    simp only [buildBlocks] at hr
    by_cases hm : idx ≤ be + 1
    · rw [if_pos hm] at hr
      rcases ih bs idx (by omega) hch' r hr k hk1 hk2 with ⟨h1, h2⟩ | h3
      · by_cases hkb : k ≤ be
        · exact Or.inl ⟨h1, hkb⟩
        · have : k = idx := by omega
          exact Or.inr (by rw [this]; exact List.mem_cons_self ..)
      · exact Or.inr (List.mem_cons_of_mem _ h3)
    · rw [if_neg hm] at hr
      rcases List.mem_cons.mp hr with rfl | hr'
      · exact Or.inl ⟨hk1, hk2⟩
      · rcases ih idx idx le_rfl hch' r hr' k hk1 hk2 with ⟨h1, h2⟩ | h3
        · have : k = idx := by omega
          exact Or.inr (by rw [this]; exact List.mem_cons_self ..)
        · exact Or.inr (List.mem_cons_of_mem _ h3)

theorem buildBlocks_mem_cover : ∀ (l : List Nat) (bs be : Nat), bs ≤ be →
    List.Chain' (· < ·) (be :: l) →
    ∀ x, ((bs ≤ x ∧ x ≤ be) ∨ x ∈ l) → ∃ r ∈ buildBlocks bs be l, r.1 ≤ x ∧ x ≤ r.2 := by
  intro l
  induction l with
  | nil =>
    intro bs be _ _ x hx
    rcases hx with ⟨h1, h2⟩ | h3
    · exact ⟨(bs, be), List.mem_singleton.mpr rfl, h1, h2⟩
    · simp at h3
  | cons idx rest ih =>
    intro bs be hbe hch x hx
    rw [List.chain'_cons] at hch
    obtain ⟨hlt, hch'⟩ := hch
    simp only [buildBlocks]
    by_cases hm : idx ≤ be + 1
    · rw [if_pos hm]
      apply ih bs idx (by omega) hch'
      rcases hx with ⟨h1, h2⟩ | h3
      · exact Or.inl ⟨h1, by omega⟩
      · rcases List.mem_cons.mp h3 with rfl | h4
        · exact Or.inl ⟨by omega, le_rfl⟩
        · exact Or.inr h4
    · rw [if_neg hm]
      rcases hx with ⟨h1, h2⟩ | h3
      · exact ⟨(bs, be), List.mem_cons_self .., h1, h2⟩
      · rcases List.mem_cons.mp h3 with rfl | h4
        · obtain ⟨r, hr, hr1, hr2⟩ := ih x x le_rfl hch' x (Or.inl ⟨le_rfl, le_rfl⟩)
          exact ⟨r, List.mem_cons_of_mem _ hr, hr1, hr2⟩
        · obtain ⟨r, hr, hr1, hr2⟩ := ih idx idx le_rfl hch' x (Or.inr h4)
          exact ⟨r, List.mem_cons_of_mem _ hr, hr1, hr2⟩

theorem chain_lt_head_lt_mem : ∀ (l : List Nat) (a c : Nat),
    List.Chain' (· < ·) (a :: l) → c ∈ l → a < c := by
  intro l
  induction l with
  | nil =>
    intro a c _ hc
    simp at hc
  | cons b rest ih =>
    intro a c hch hc
    rw [List.chain'_cons] at hch
    rcases List.mem_cons.mp hc with rfl | hc'
    · exact hch.1
    · exact lt_trans hch.1 (ih b c hch.2 hc')

theorem chain_zip_rel : ∀ (l : List Nat), List.Chain' (· < ·) l →
    ∀ p ∈ l.zip l.tail, p.1 < p.2 := by
  intro l
  induction l with
  | nil => simp
  | cons x t ih =>
    intro hch p hp
    cases t with
    | nil => simp at hp
    | cons y rest =>
      rw [List.tail_cons, List.zip_cons_cons] at hp
      rw [List.chain'_cons] at hch
      rcases List.mem_cons.mp hp with rfl | hp'
      · exact hch.1
      · exact ih hch.2 p (by rw [List.tail_cons]; exact hp')

theorem chain_adjacent_no_between : ∀ (l : List Nat), List.Chain' (· < ·) l →
    ∀ p ∈ l.zip l.tail, ∀ c ∈ l, ¬ (p.1 < c ∧ c < p.2) := by
  intro l
  induction l with
  | nil => simp
  | cons x t ih =>
    intro hch p hp c hc hbet
    cases t with
    | nil => simp at hp
    | cons y rest =>
      rw [List.tail_cons, List.zip_cons_cons] at hp
      rw [List.chain'_cons] at hch
      rcases List.mem_cons.mp hp with rfl | hp'
      · rcases List.mem_cons.mp hc with rfl | hc'
        · omega
        · rcases List.mem_cons.mp hc' with rfl | hc''
          · omega
          · have := chain_lt_head_lt_mem rest y c hch.2 hc''
            omega
      · rcases List.mem_cons.mp hc with rfl | hc'
        · have hp1 : p.1 ∈ y :: rest := (List.of_mem_zip hp').1
          have := chain_lt_head_lt_mem (y :: rest) c p.1 (by rw [List.chain'_cons]; exact hch) hp1
          omega
        · exact ih hch.2 p (by rw [List.tail_cons]; exact hp') c hc' hbet

theorem pairwise_rel_cases {α : Type} (R : α → α → Prop) :
    ∀ (l : List α), l.Pairwise R → ∀ a ∈ l, ∀ b ∈ l, a = b ∨ R a b ∨ R b a := by
  intro l hl
  induction hl with
  | nil =>
    intro a ha
    simp at ha
  | cons hhead _ ih =>
    intro a ha b hb
    rcases List.mem_cons.mp ha with rfl | ha'
    · rcases List.mem_cons.mp hb with rfl | hb'
      · exact Or.inl rfl
      · exact Or.inr (Or.inl (hhead b hb'))
    · rcases List.mem_cons.mp hb with rfl | hb'
      · exact Or.inr (Or.inr (hhead a ha'))
      · exact ih a ha' b hb'

theorem sortedIdx_chain (lines : List (List Char)) (cl : Nat) :
    List.Chain' (· < ·) (sortedIdx lines cl) := by
  unfold sortedIdx
  exact ((List.pairwise_lt_range _).filter _).chain'

theorem blocksOf_covers (s : Nat) (rest : List Nat)
    (hch : List.Chain' (· < ·) (s :: rest)) :
    ∀ x ∈ s :: rest, ∃ r ∈ buildBlocks s s rest, r.1 ≤ x ∧ x ≤ r.2 := by
  intro x hx
  apply buildBlocks_mem_cover rest s s le_rfl hch
  rcases List.mem_cons.mp hx with rfl | hx'
  · exact Or.inl ⟨le_rfl, le_rfl⟩
  · exact Or.inr hx'

theorem blocksOf_spec (sidx : List Nat) (hch : List.Chain' (· < ·) sidx)
    (hne : sidx ≠ []) :
    (∀ r ∈ blocksOf sidx, r.1 ≤ r.2) ∧
    (blocksOf sidx).Pairwise (fun r1 r2 => r1.2 + 1 < r2.1) ∧
    (∀ p ∈ sidx.zip sidx.tail,
      (∃ r ∈ blocksOf sidx, r.1 ≤ p.1 ∧ p.2 ≤ r.2) ↔ p.2 ≤ p.1 + 1) := by
  cases sidx with
  | nil => exact absurd rfl hne
  | cons s rest =>
    refine ⟨buildBlocks_valid rest s s le_rfl hch,
            buildBlocks_sep rest s s le_rfl hch, ?_⟩
    intro p hp
    rw [List.tail_cons] at hp
    constructor
    · rintro ⟨r, hr, hr1, hr2⟩
      by_contra hgt
      push_neg at hgt
      have hcov := buildBlocks_cover rest s s le_rfl hch r hr (p.1 + 1) (by omega) (by omega)
      have hmem : p.1 + 1 ∈ s :: rest := by
        rcases hcov with ⟨h1, h2⟩ | h3
        · have he : p.1 + 1 = s := le_antisymm h2 h1
          rw [he]
          exact List.mem_cons_self ..
        · exact List.mem_cons_of_mem _ h3
      exact chain_adjacent_no_between (s :: rest) hch p (by rw [List.tail_cons]; exact hp)
        (p.1 + 1) hmem ⟨by omega, by omega⟩
    · intro hle
      have hlt : p.1 < p.2 := chain_zip_rel (s :: rest) hch p (by rw [List.tail_cons]; exact hp)
      obtain ⟨hp1, hp2⟩ := List.of_mem_zip hp
      obtain ⟨r1, hr1m, hr1a, hr1b⟩ := blocksOf_covers s rest hch p.1 hp1
      obtain ⟨r2, hr2m, hr2a, hr2b⟩ := blocksOf_covers s rest hch p.2
        (List.mem_cons_of_mem _ hp2)
      rcases pairwise_rel_cases _ _ (buildBlocks_sep rest s s le_rfl hch)
          r1 hr1m r2 hr2m with heq | hsep | hsep
      · subst heq
        exact ⟨r1, hr1m, hr1a, hr2b⟩
      · omega
      · omega

/-- Eleven concrete lines used to exercise the block-merging example. -/
def exampleLines : List (List Char) :=
  [ "L0".data, "L1".data, "L2".data, "L3".data, "L4".data, "L5".data,
    "L6".data, "L7".data, "L8".data, "L9".data, "L10".data ]

/-- C1: when at least one line is marked, the blocks built from the sorted
marked indices are valid ranges, pairwise separated (hence non-overlapping
and ordered by start index, with a gap of at least one unmarked line between
consecutive blocks), and two adjacent marked indices land in the same block
exactly when they differ by at most 1.  In particular the marked index set
`{3, 4, 5, 9, 10}` produces exactly the two blocks `3–5` and `9–10`, rendered
joined by the block delimiter. -/
theorem extraction_merging (text : List Char) (cl : Nat)
    (hne : sortedIdx (splitLines text) cl ≠ []) :
    (∀ r ∈ blocksOf (sortedIdx (splitLines text) cl), r.1 ≤ r.2) ∧
    (blocksOf (sortedIdx (splitLines text) cl)).Pairwise
      (fun r1 r2 => r1.2 + 1 < r2.1) ∧
    (∀ p ∈ (sortedIdx (splitLines text) cl).zip (sortedIdx (splitLines text) cl).tail,
      (∃ r ∈ blocksOf (sortedIdx (splitLines text) cl), r.1 ≤ p.1 ∧ p.2 ≤ r.2)
        ↔ p.2 ≤ p.1 + 1) ∧
    blocksOf [3, 4, 5, 9, 10] = [(3, 5), (9, 10)] ∧
    joinSep BLOCK_DELIM ((blocksOf [3, 4, 5, 9, 10]).map (renderBlock exampleLines))
      = "L3\nL4\nL5\n\n---\n\nL9\nL10".data := by
  obtain ⟨h1, h2, h3⟩ := blocksOf_spec _ (sortedIdx_chain (splitLines text) cl) hne
  exact ⟨h1, h2, h3, by decide, by decide⟩

theorem extraction_merging_witness :
    (sortedIdx (splitLines ("ERROR boom".data)) 2 ≠ []) ∧
    ((∀ r ∈ blocksOf (sortedIdx (splitLines ("ERROR boom".data)) 2), r.1 ≤ r.2) ∧
     (blocksOf (sortedIdx (splitLines ("ERROR boom".data)) 2)).Pairwise
       (fun r1 r2 => r1.2 + 1 < r2.1) ∧
     (∀ p ∈ (sortedIdx (splitLines ("ERROR boom".data)) 2).zip
         (sortedIdx (splitLines ("ERROR boom".data)) 2).tail,
       (∃ r ∈ blocksOf (sortedIdx (splitLines ("ERROR boom".data)) 2),
           r.1 ≤ p.1 ∧ p.2 ≤ r.2) ↔ p.2 ≤ p.1 + 1) ∧
     blocksOf [3, 4, 5, 9, 10] = [(3, 5), (9, 10)] ∧
     joinSep BLOCK_DELIM ((blocksOf [3, 4, 5, 9, 10]).map (renderBlock exampleLines))
       = "L3\nL4\nL5\n\n---\n\nL9\nL10".data) :=
  ⟨by decide, extraction_merging ("ERROR boom".data) 2 (by decide)⟩

/-! ### C8: total safety of `extract_relevant_lines`

To show the function returns normally for every input, we re-embed it loop by
loop: the two marking passes run over a mutable set accumulator exactly as in
the source, the stack pass reads `lines[j]` with checked indexing (`none`
models an `IndexError`), and the block loop starts from `sorted_idx[0]`
(`none` models the head of an empty list).  The theorem proves this checked
version always returns `some` of the value computed by the direct embedding
above — no internal access can fail, and the no-match case flows into the
fallback rather than an error. -/

/-- Keyword pass, loop by loop: for each `i, line in enumerate(lines)`, if the
keyword pattern matches, add every `j` of the context window
`range(max(0, i - context_lines), min(n, i + context_lines + 1))` to the
set. -/
def keywordPassLoop (lines : List (List Char)) (cl : Nat) : Finset Nat :=
  (List.range lines.length).foldl
    (fun acc i =>
      if (errorKeywordSearch (lines.getD i [])).isSome then
        (List.range' (i - cl) (min lines.length (i + cl + 1) - (i - cl))).foldl
          (fun a j => insert j a) acc
      else acc) ∅

/-- Stack pass, loop by loop: for each `i`, if a stack starter matches, walk
`j` over `range(i, min(n, i + 200))`, read `ln = lines[j]` (checked: `none`
would be an `IndexError`) and add `j`; the end-of-trace heuristic on `ln` has
a `pass` body. -/
def stackPassLoop (lines : List (List Char)) (acc0 : Finset Nat) : Option (Finset Nat) :=
  (List.range lines.length).foldlM
    (fun acc i =>
      if stackStarterSearch (lines.getD i []) then
        (List.range' i (min lines.length (i + 200) - i)).foldlM
          (fun a j => (lines[j]?).map (fun _ln => insert j a)) acc
      else pure acc) acc0

/-- `extract_relevant_lines`, loop-by-loop embedding with checked indexing;
`sorted(matched_indices)` is `Finset.sort`, and `sorted_idx[0]` is a checked
head access. -/
def extract_relevant_lines_checked (text : List Char) (max_lines cl : Nat) :
    Option (List Char) :=
  if text = [] then some []
  else
    (stackPassLoop (splitLines text) (keywordPassLoop (splitLines text) cl)).bind
      fun matched =>
        if matched = ∅ then some (tailFallback (splitLines text) max_lines)
        else
          ((matched.sort (· ≤ ·)).head?).bind fun s0 =>
            let combined := joinSep BLOCK_DELIM
              ((buildBlocks s0 s0 ((matched.sort (· ≤ ·)).tail)).map
                (renderBlock (splitLines text)))
            if max_chars < combined.length then
              some (tailFallback (splitLines text) max_lines)
            else some combined

theorem mem_foldl_insert (l : List Nat) :
    ∀ (acc : Finset Nat) (j : Nat),
      (j ∈ l.foldl (fun a x => insert x a) acc) ↔ j ∈ acc ∨ j ∈ l := by
  induction l with
  | nil =>
    intro acc j
    simp
  | cons x t ih =>
    intro acc j
    rw [List.foldl_cons, ih]
    simp only [Finset.mem_insert, List.mem_cons]
    tauto

theorem mem_foldl_condInsert (p : Nat → Bool) (g : Nat → List Nat) (l : List Nat) :
    ∀ (acc : Finset Nat) (j : Nat),
      (j ∈ l.foldl
        (fun acc2 i => if p i then (g i).foldl (fun a j2 => insert j2 a) acc2 else acc2) acc)
        ↔ j ∈ acc ∨ ∃ i ∈ l, p i ∧ j ∈ g i := by
  induction l with
  | nil =>
    intro acc j
    simp
  | cons x t ih =>
    intro acc j
    rw [List.foldl_cons]
    by_cases hp : p x
    · rw [if_pos hp, ih, mem_foldl_insert]
      simp only [List.mem_cons]
      constructor
      · rintro ((h | h) | ⟨i, hi, hpi, hj⟩)
        · exact Or.inl h
        · exact Or.inr ⟨x, Or.inl rfl, hp, h⟩
        · exact Or.inr ⟨i, Or.inr hi, hpi, hj⟩
      · rintro (h | ⟨i, (rfl | hi), hpi, hj⟩)
        · exact Or.inl (Or.inl h)
        · exact Or.inl (Or.inr hj)
        · exact Or.inr ⟨i, hi, hpi, hj⟩
    · rw [if_neg hp, ih]
      simp only [List.mem_cons]
      constructor
      · rintro (h | ⟨i, hi, hpi, hj⟩)
        · exact Or.inl h
        · exact Or.inr ⟨i, Or.inr hi, hpi, hj⟩
      · rintro (h | ⟨i, (rfl | hi), hpi, hj⟩)
        · exact Or.inl h
        · exact absurd hpi (by simp [hp])
        · exact Or.inr ⟨i, hi, hpi, hj⟩

theorem foldlM_option_eq_foldl {α β : Type} (f : β → α → Option β) (g : β → α → β)
    (l : List α) (hfg : ∀ b, ∀ x ∈ l, f b x = some (g b x)) :
    ∀ b, l.foldlM f b = some (l.foldl g b) := by
  induction l with
  | nil => intro b; rfl
  | cons x t ih =>
    intro b
    rw [List.foldlM_cons, hfg b x (List.mem_cons_self ..)]
    rw [List.foldl_cons]
    have hbind : (some (g b x) >>= fun b2 => t.foldlM f b2) = t.foldlM f (g b x) := rfl
    rw [hbind]
    exact ih (fun b2 x2 hx2 => hfg b2 x2 (List.mem_cons_of_mem _ hx2)) (g b x)

/-- The stack pass never fails: every index it reads is in bounds. -/
def stackPassTotal (lines : List (List Char)) (acc0 : Finset Nat) : Finset Nat :=
  (List.range lines.length).foldl
    (fun acc i =>
      if stackStarterSearch (lines.getD i []) then
        (List.range' i (min lines.length (i + 200) - i)).foldl (fun a j => insert j a) acc
      else acc) acc0

theorem stackPassLoop_eq_total (lines : List (List Char)) (acc0 : Finset Nat) :
    stackPassLoop lines acc0 = some (stackPassTotal lines acc0) := by
  unfold stackPassLoop stackPassTotal
  apply foldlM_option_eq_foldl
  intro acc i hi
  rw [List.mem_range] at hi
  by_cases hs : stackStarterSearch (lines.getD i [])
  · rw [if_pos hs, if_pos hs]
    apply foldlM_option_eq_foldl
    intro a j hj
    rw [List.mem_range'_1] at hj
    have hjn : j < lines.length := by omega
    rw [List.getElem?_eq_getElem hjn]
    rfl
  · rw [if_neg hs, if_neg hs]
    rfl

theorem matched_iff_lineMarked (lines : List (List Char)) (cl j : Nat) :
    j ∈ stackPassTotal lines (keywordPassLoop lines cl) ↔
      (j < lines.length ∧ lineMarked lines cl j = true) := by
  unfold stackPassTotal keywordPassLoop
  rw [mem_foldl_condInsert, mem_foldl_condInsert]
  unfold lineMarked
  constructor
  · rintro ((h | ⟨i, hi, hsome, hj⟩) | ⟨i, hi, hstack, hj⟩)
    · simp at h
    · rw [List.mem_range] at hi
      rw [List.mem_range'_1] at hj
      refine ⟨by omega, ?_⟩
      rw [Bool.or_eq_true]
      left
      rw [List.any_eq_true]
      refine ⟨i, List.mem_range.mpr hi, ?_⟩
      rw [hsome]
      simp only [Bool.true_and, Bool.and_eq_true, decide_eq_true_eq]
      omega
    · rw [List.mem_range] at hi
      rw [List.mem_range'_1] at hj
      refine ⟨by omega, ?_⟩
      rw [Bool.or_eq_true]
      right
      rw [List.any_eq_true]
      refine ⟨i, List.mem_range.mpr hi, ?_⟩
      rw [hstack]
      simp only [Bool.true_and, Bool.and_eq_true, decide_eq_true_eq]
      omega
  · rintro ⟨hjn, hm⟩
    rw [Bool.or_eq_true] at hm
    rcases hm with hm | hm
    · left
      right
      rw [List.any_eq_true] at hm
      obtain ⟨i, hi, hpred⟩ := hm
      rw [List.mem_range] at hi
      simp only [Bool.and_eq_true, decide_eq_true_eq] at hpred
      obtain ⟨⟨hsome, h1⟩, h2⟩ := hpred
      exact ⟨i, List.mem_range.mpr hi, hsome, List.mem_range'_1.mpr ⟨h1, by omega⟩⟩
    · right
      rw [List.any_eq_true] at hm
      obtain ⟨i, hi, hpred⟩ := hm
      rw [List.mem_range] at hi
      simp only [Bool.and_eq_true, decide_eq_true_eq] at hpred
      obtain ⟨⟨hstack, h1⟩, h2⟩ := hpred
      exact ⟨i, List.mem_range.mpr hi, hstack, List.mem_range'_1.mpr ⟨h1, by omega⟩⟩

theorem finset_sort_eq_filter_range (s : Finset Nat) (n : Nat) (p : Nat → Bool)
    (h : ∀ j, j ∈ s ↔ (j < n ∧ p j = true)) :
    s.sort (· ≤ ·) = (List.range n).filter p := by
  have hperm : List.Perm (s.sort (· ≤ ·)) ((List.range n).filter p) := by
    rw [List.perm_ext_iff_of_nodup (Finset.sort_nodup _ _)
      ((List.nodup_range n).filter _)]
    intro j
    rw [Finset.mem_sort, h, List.mem_filter, List.mem_range]
  exact List.eq_of_perm_of_sorted hperm (Finset.sort_sorted _ _)
    (((List.pairwise_lt_range n).filter p).imp (fun hab => le_of_lt hab))

/-- C8: for every input text (arbitrary characters, including replacement
characters from binary decoding), the loop-by-loop checked embedding of
`extract_relevant_lines` returns normally — every internal list access is in
bounds, the no-match case flows to the fallback path instead of raising — and
its value is exactly the one computed by the direct embedding. -/
theorem extract_never_raises (text : List Char) (max_lines cl : Nat) :
    extract_relevant_lines_checked text max_lines cl
      = some (extract_relevant_lines text max_lines cl) := by
  by_cases hne : text = []
  · subst hne
    rfl
  · unfold extract_relevant_lines_checked extract_relevant_lines
    rw [if_neg hne, if_neg hne, stackPassLoop_eq_total, Option.some_bind]
    dsimp only
    have hsort : (stackPassTotal (splitLines text) (keywordPassLoop (splitLines text) cl)).sort
        (· ≤ ·) = sortedIdx (splitLines text) cl := by
      apply finset_sort_eq_filter_range
      intro j
      exact matched_iff_lineMarked (splitLines text) cl j
    by_cases hemp : stackPassTotal (splitLines text) (keywordPassLoop (splitLines text) cl) = ∅
    · rw [if_pos hemp]
      have hnil : sortedIdx (splitLines text) cl = [] := by
        rw [← hsort, hemp]
        exact Finset.sort_empty _
      rw [hnil]
      rfl
    · rw [if_neg hemp]
      have hsne : sortedIdx (splitLines text) cl ≠ [] := by
        intro hh
        apply hemp
        apply Finset.eq_empty_of_forall_not_mem
        intro j hj
        have hj2 : j ∈ (stackPassTotal (splitLines text)
            (keywordPassLoop (splitLines text) cl)).sort (· ≤ ·) :=
          (Finset.mem_sort _).mpr hj
        rw [hsort, hh] at hj2
        simp at hj2
      obtain ⟨s0, restl, hcons⟩ : ∃ a t, sortedIdx (splitLines text) cl = a :: t := by
        cases hx : sortedIdx (splitLines text) cl with
        | nil => exact absurd hx hsne
        | cons a t => exact ⟨a, t, rfl⟩
      rw [hsort, hcons, List.head?_cons, Option.some_bind, List.tail_cons]
      rw [if_neg (List.cons_ne_nil s0 restl)]
      rw [apply_ite some]
      rfl

theorem extract_never_raises_witness :
    extract_relevant_lines_checked ("INFO start\nERROR: build failed\nINFO done".data) 500 2
      = some (extract_relevant_lines ("INFO start\nERROR: build failed\nINFO done".data) 500 2) :=
  extract_never_raises ("INFO start\nERROR: build failed\nINFO done".data) 500 2

-- sanity checks against the Python behavior (kept as anonymous examples)
example : splitLines ("a\nb\n".data) = ["a".data, "b".data] := by decide
example : splitLines ("a\n\nb".data) = ["a".data, [], "b".data] := by decide
example : errorKeywordSearch ("xx ERROR yy".data) = some ("ERROR".data) := by decide
example : errorKeywordSearch ("it FAILED.".data) = some ("FAILED".data) := by decide
example : errorKeywordSearch ("hello world".data) = none := by decide
example : errorKeywordSearch ("unfailing".data) = none := by decide
example : stackStarterSearch ("goroutine panic: boom".data) = true := by decide
example : stackStarterSearch ("at com.foo.Bar(Bar.java:3)".data) = false := by decide
example : blocksOf [3, 4, 5, 9, 10] = [(3, 5), (9, 10)] := by decide
example : extract_relevant_lines ("ok\nfine".data) 500 2 = "ok\nfine".data := by decide

end LogAnalyzer
